import Mathlib

/-!
Shallow embedding of the `metaforecast` ensembles core
(`src/metaforecast/ensembles/base.py` and `src/metaforecast/ensembles/mlewa.py`)
and verification of the specification's claims about it.

Numeric state (numpy arrays / pandas Series of floats) is modelled over `ℝ`,
indexed by `Fin n` where `n` is the roster size (`len(self.model_names)`).
The per-row loop of `MLewa._update_mixture` is modelled by explicit state
threading (`MLState`, `update_row`, `run_rows`).  The loss strategy
(`metaforecast.ensembles.expert_loss`, not part of the analysed sources) is an
opaque parameter `calcLoss : ℝ → ℝ → ℝ → ℝ` standing for
`Mixture._calc_loss(fcst, y, fcst_c)` applied elementwise.
-/

/-- `MLewa.truncate_loss`: `np.clip(x, np.exp(-700), np.exp(700))`,
i.e. `min (max x (exp (-700))) (exp 700)`. -/
noncomputable def truncate_loss (x : ℝ) : ℝ :=
  min (max x (Real.exp (-700))) (Real.exp 700)

/-- `np.max` over a per-expert vector (0 for an empty roster, a case numpy
would reject; only used with a non-empty roster). -/
noncomputable def vecMax {n : ℕ} (v : Fin n → ℝ) : ℝ :=
  if h : 0 < n then
    haveI : Nonempty (Fin n) := Fin.pos_iff_nonempty.mp h
    Finset.univ.sup' Finset.univ_nonempty v
  else 0

/-- `MLewa._weights_from_regret` (mlewa.py lines 129-145): if the maximum
accumulated regret is positive, exponentiate `eta * regret`, truncate, and
normalize by the sum; otherwise uniform `1/n` weights. -/
noncomputable def weights_from_regret {n : ℕ} (eta regret : Fin n → ℝ) :
    Fin n → ℝ :=
  if 0 < vecMax regret then
    fun i =>
      truncate_loss (Real.exp (eta i * regret i))
        / ∑ j, truncate_loss (Real.exp (eta j * regret j))
  else
    fun _ => 1 / n

/-- `Mixture._calc_ensemble_fcst` (base.py lines 373-381): renormalize the
weight vector and take the inner product with the expert forecasts. -/
noncomputable def calc_ensemble_fcst {n : ℕ} (fcst weight : Fin n → ℝ) :
    (Fin n → ℝ) × ℝ :=
  (fun i => weight i / ∑ j, weight j,
   ∑ i, fcst i * (weight i / ∑ j, weight j))

/-- State threaded through one fitting pass of `MLewa`: the current row's
learning-rate vector (`self.eta[i]`) and the accumulated regret
(`self.regret`). -/
structure MLState (n : ℕ) where
  eta : Fin n → ℝ
  regret : Fin n → ℝ

/-- Per-row outputs of the pass: `self.weights[i]` (the renormalized mixture
weights) and `self.ensemble_fcst[i]`. -/
@[ext]
structure RowOut (n : ℕ) where
  weights : Fin n → ℝ
  fcst_c : ℝ

/-- `MLewa._initialize_params`: `eta` filled with `np.exp(350)` and regret
zeroed. -/
noncomputable def initState (n : ℕ) : MLState n :=
  ⟨fun _ => Real.exp 350, fun _ => 0⟩

/-- One iteration of the loop in `MLewa._update_mixture` (mlewa.py lines
112-127): compute weights from regret, form the mixture forecast, compute
per-expert and mixture losses, accumulate regret, and update `eta` by
`sqrt(log n / (log n / eta^2 + regret_i^2))`. -/
noncomputable def update_row {n : ℕ} (calcLoss : ℝ → ℝ → ℝ → ℝ)
    (s : MLState n) (fc : Fin n → ℝ) (y : ℝ) : MLState n × RowOut n :=
  let w := weights_from_regret s.eta s.regret
  let mf := calc_ensemble_fcst fc w
  let fcst_c := mf.2
  let loss_experts := fun i => calcLoss (fc i) y fcst_c
  let loss_mixture := calcLoss fcst_c y fcst_c
  let regret_i := fun i => loss_mixture - loss_experts i
  (⟨fun i =>
      Real.sqrt (Real.log n
        / (Real.log n / (s.eta i) ^ 2 + (regret_i i) ^ 2)),
    fun i => s.regret i + regret_i i⟩,
   ⟨mf.1, fcst_c⟩)

/-- The whole loop of `MLewa._update_mixture` over a list of rows (each row:
expert forecasts and the actual value), collecting the per-row outputs. -/
noncomputable def run_rows {n : ℕ} (calcLoss : ℝ → ℝ → ℝ → ℝ) :
    MLState n → List ((Fin n → ℝ) × ℝ) → List (RowOut n)
  | _, [] => []
  | s, r :: rest =>
      (update_row calcLoss s r.1 r.2).2
        :: run_rows calcLoss (update_row calcLoss s r.1 r.2).1 rest

lemma truncate_loss_ge (x : ℝ) : Real.exp (-700) ≤ truncate_loss x := by
  unfold truncate_loss
  exact le_min (le_max_right _ _) (Real.exp_le_exp.mpr (by norm_num))

lemma truncate_loss_le (x : ℝ) : truncate_loss x ≤ Real.exp 700 :=
  min_le_right _ _

lemma truncate_loss_pos (x : ℝ) : 0 < truncate_loss x :=
  lt_of_lt_of_le (Real.exp_pos _) (truncate_loss_ge x)

lemma sum_truncate_pos {n : ℕ} (hn : 0 < n) (f : Fin n → ℝ) :
    0 < ∑ i, truncate_loss (f i) := by
  haveI : Nonempty (Fin n) := Fin.pos_iff_nonempty.mp hn
  exact Finset.sum_pos (fun i _ => truncate_loss_pos _) Finset.univ_nonempty

lemma weights_from_regret_pos {n : ℕ} (hn : 0 < n) (eta regret : Fin n → ℝ) :
    ∀ i, 0 < weights_from_regret eta regret i := by
  intro i
  by_cases h : 0 < vecMax regret
  · simp only [weights_from_regret, if_pos h]
    exact div_pos (truncate_loss_pos _)
      (sum_truncate_pos hn fun j => Real.exp (eta j * regret j))
  · simp only [weights_from_regret, if_neg h]
    have : (0 : ℝ) < n := by exact_mod_cast hn
    positivity

lemma weights_from_regret_sum {n : ℕ} (hn : 0 < n) (eta regret : Fin n → ℝ) :
    ∑ i, weights_from_regret eta regret i = 1 := by
  by_cases h : 0 < vecMax regret
  · simp only [weights_from_regret, if_pos h]
    rw [← Finset.sum_div]
    exact div_self
      (ne_of_gt (sum_truncate_pos hn fun j => Real.exp (eta j * regret j)))
  · simp only [weights_from_regret, if_neg h]
    have hne : (n : ℝ) ≠ 0 := by exact_mod_cast hn.ne'
    simp [Finset.sum_const, Finset.card_univ]
    field_simp

/-- C1: the weight vector computed by `_weights_from_regret`.  If the maximum
accumulated regret is positive, the weights are proportional (with a positive
constant) to `truncate_loss (exp (eta * regret))` and sum to 1; otherwise they
are exactly the uniform vector `1/n`. -/
theorem weights_from_regret_spec {n : ℕ} (hn : 0 < n)
    (eta regret : Fin n → ℝ) :
    (0 < vecMax regret →
      ∃ c : ℝ, 0 < c ∧
        (∀ i, weights_from_regret eta regret i
            = c * truncate_loss (Real.exp (eta i * regret i))) ∧
        ∑ i, weights_from_regret eta regret i = 1) ∧
    (¬ 0 < vecMax regret →
      ∀ i, weights_from_regret eta regret i = 1 / n) := by
  constructor
  · intro h
    refine ⟨(∑ j, truncate_loss (Real.exp (eta j * regret j)))⁻¹,
      inv_pos.mpr (sum_truncate_pos hn fun j => Real.exp (eta j * regret j)), ?_,
      weights_from_regret_sum hn eta regret⟩
    intro i
    simp only [weights_from_regret, if_pos h]
    rw [div_eq_inv_mul]
  · intro h i
    simp only [weights_from_regret, if_neg h]

/-- C1 witness: for a single-expert roster with zero regret the non-positive
branch yields the uniform weight `1/1`. -/
theorem weights_from_regret_spec_witness :
    (0 < 1) ∧
      weights_from_regret (fun _ : Fin 1 => (0 : ℝ)) (fun _ => 0) 0
        = 1 / ((1 : ℕ) : ℝ) := by
  refine ⟨Nat.one_pos, ?_⟩
  have h : ¬ 0 < vecMax (fun _ : Fin 1 => (0 : ℝ)) := by
    simp [vecMax]
  exact (weights_from_regret_spec Nat.one_pos
    (fun _ : Fin 1 => (0 : ℝ)) (fun _ => 0)).2 h 0

lemma calc_ensemble_fcst_convex {n : ℕ} (hn : 0 < n) (fc w : Fin n → ℝ)
    (hw : ∀ i, 0 < w i) :
    (∀ i, 0 ≤ (calc_ensemble_fcst fc w).1 i) ∧
      ∑ i, (calc_ensemble_fcst fc w).1 i = 1 := by
  haveI : Nonempty (Fin n) := Fin.pos_iff_nonempty.mp hn
  have hS : 0 < ∑ j, w j :=
    Finset.sum_pos (fun j _ => hw j) Finset.univ_nonempty
  constructor
  · intro i
    exact le_of_lt (div_pos (hw i) hS)
  · simp only [calc_ensemble_fcst]
    rw [← Finset.sum_div]
    exact div_self (ne_of_gt hS)

lemma update_row_out_convex {n : ℕ} (hn : 0 < n) (cl : ℝ → ℝ → ℝ → ℝ)
    (s : MLState n) (fc : Fin n → ℝ) (y : ℝ) :
    (∀ i, 0 ≤ (update_row cl s fc y).2.weights i) ∧
      ∑ i, (update_row cl s fc y).2.weights i = 1 :=
  calc_ensemble_fcst_convex hn fc (weights_from_regret s.eta s.regret)
    (weights_from_regret_pos hn s.eta s.regret)

lemma run_rows_out_convex {n : ℕ} (hn : 0 < n) (cl : ℝ → ℝ → ℝ → ℝ) :
    ∀ (rows : List ((Fin n → ℝ) × ℝ)) (s : MLState n),
      ∀ out ∈ run_rows cl s rows,
        (∀ i, 0 ≤ out.weights i) ∧ ∑ i, out.weights i = 1 := by
  intro rows
  induction rows with
  | nil => intro s out h; simp [run_rows] at h
  | cons r rest ih =>
      intro s out h
      rw [run_rows] at h
      rcases List.mem_cons.mp h with h' | h'
      · subst h'
        exact update_row_out_convex hn cl s r.1 r.2
      · exact ih _ out h'

/-- C3: every per-row weight vector produced by a fitting pass of the engine
is a convex combination over the roster: entries are non-negative and sum to
one (exactly, in the real-number model). -/
theorem engine_weights_convex {n : ℕ} (hn : 0 < n) (cl : ℝ → ℝ → ℝ → ℝ)
    (rows : List ((Fin n → ℝ) × ℝ)) :
    ∀ out ∈ run_rows cl (initState n) rows,
      (∀ i, 0 ≤ out.weights i) ∧ ∑ i, out.weights i = 1 :=
  run_rows_out_convex hn cl rows (initState n)

/-- C3 witness: the weight vector of the single row of a concrete one-expert,
one-row pass sums to 1. -/
theorem engine_weights_convex_witness :
    (0 < 1) ∧
      ∑ i, ((update_row (fun _ _ _ => (0 : ℝ)) (initState 1)
            (fun _ => 1) 1).2).weights i = 1 :=
  ⟨Nat.one_pos,
    (engine_weights_convex Nat.one_pos (fun _ _ _ => (0 : ℝ))
        [(fun _ => 1, 1)] _ (by simp [run_rows])).2⟩

lemma update_row_single (cl : ℝ → ℝ → ℝ → ℝ) (s : MLState 1)
    (fc : Fin 1 → ℝ) (y : ℝ) :
    (update_row cl s fc y).2 = ⟨fun _ => 1, fc 0⟩ := by
  have hw := weights_from_regret_pos Nat.one_pos s.eta s.regret
  have hone : ∀ i, weights_from_regret s.eta s.regret i
      / (∑ j, weights_from_regret s.eta s.regret j) = 1 := by
    intro i
    rw [Fin.sum_univ_one, Subsingleton.elim i 0]
    exact div_self (hw 0).ne'
  ext i
  · exact hone i
  · show ∑ i, fc i * _ = fc 0
    rw [Fin.sum_univ_one, hone, mul_one]

/-- C6: for a single-expert roster, every row of the fitting pass produces
the weight vector constantly 1 and a mixture forecast equal to that expert's
forecast; in particular the cached (last-row) vector is exactly 1. -/
theorem single_expert_pass (cl : ℝ → ℝ → ℝ → ℝ) (s : MLState 1)
    (rows : List ((Fin 1 → ℝ) × ℝ)) :
    run_rows cl s rows = rows.map (fun r => ⟨fun _ => 1, r.1 0⟩) := by
  induction rows generalizing s with
  | nil => rfl
  | cons r rest ih =>
      rw [run_rows, List.map_cons, update_row_single, ih]

/-- C10: `truncate_loss` clamps every unnormalized weight into
`[exp (-700), exp 700]`, hence each is strictly positive and their roster sum
is strictly positive, and in the positive-regret branch the normalized
weights are strictly positive and at most 1. -/
theorem truncate_loss_safety {n : ℕ} (hn : 0 < n) (eta regret : Fin n → ℝ) :
    (∀ x : ℝ, Real.exp (-700) ≤ truncate_loss x ∧
      truncate_loss x ≤ Real.exp 700 ∧ 0 < truncate_loss x) ∧
    0 < ∑ i, truncate_loss (Real.exp (eta i * regret i)) ∧
    (0 < vecMax regret →
      ∀ i, 0 < weights_from_regret eta regret i ∧
        weights_from_regret eta regret i ≤ 1) := by
  refine ⟨fun x => ⟨truncate_loss_ge x, truncate_loss_le x,
    truncate_loss_pos x⟩,
    sum_truncate_pos hn fun j => Real.exp (eta j * regret j), ?_⟩
  intro h i
  refine ⟨weights_from_regret_pos hn eta regret i, ?_⟩
  simp only [weights_from_regret, if_pos h]
  rw [div_le_one (sum_truncate_pos hn fun j => Real.exp (eta j * regret j))]
  exact Finset.single_le_sum
    (fun j _ => le_of_lt (truncate_loss_pos (Real.exp (eta j * regret j))))
    (Finset.mem_univ i)

/-- C10 witness: the roster sum of clipped unnormalized weights is positive
for a concrete single-expert state. -/
theorem truncate_loss_safety_witness :
    0 < ∑ i : Fin 1,
        truncate_loss (Real.exp ((fun _ : Fin 1 => (0 : ℝ)) i
          * (fun _ : Fin 1 => (0 : ℝ)) i)) :=
  (truncate_loss_safety Nat.one_pos (fun _ => 0) (fun _ => 0)).2.1

/-- C2: the per-row update of `MLewa._update_mixture`: the accumulated regret
becomes `regret + (loss of the mixture − loss of the expert)` and the next
row's learning rate is `sqrt(log n / (log n / eta^2 + round_regret^2))`. -/
theorem update_mixture_spec {n : ℕ} (cl : ℝ → ℝ → ℝ → ℝ) (s : MLState n)
    (fc : Fin n → ℝ) (y : ℝ) :
    (∀ i, (update_row cl s fc y).1.regret i
        = s.regret i
          + (cl (update_row cl s fc y).2.fcst_c y
                (update_row cl s fc y).2.fcst_c
             - cl (fc i) y (update_row cl s fc y).2.fcst_c)) ∧
    (∀ i, (update_row cl s fc y).1.eta i
        = Real.sqrt (Real.log n
            / (Real.log n / (s.eta i) ^ 2
               + (cl (update_row cl s fc y).2.fcst_c y
                     (update_row cl s fc y).2.fcst_c
                  - cl (fc i) y (update_row cl s fc y).2.fcst_c) ^ 2))) :=
  ⟨fun _ => rfl, fun _ => rfl⟩

/-- `ForecastingEnsemble._set_n_models` (base.py lines 145-156):
`n_models = int(trim_ratio * tot_n_models)` (Python `int` truncates toward
zero, which after the `< 1 → 1` clamp coincides with `Int.toNat ∘ Int.floor`)
clamped below by 1. -/
def set_n_models (trim_ratio : ℚ) (tot_n_models : ℕ) : ℕ :=
  if Int.toNat ⌊trim_ratio * tot_n_models⌋ < 1 then 1
  else Int.toNat ⌊trim_ratio * tot_n_models⌋

/-- The retained-model count as the specification words it:
`max(1, round(trim_ratio * roster_size))`. -/
def claimed_n_models (trim_ratio : ℚ) (tot_n_models : ℕ) : ℕ :=
  max 1 (Int.toNat (round (trim_ratio * tot_n_models)))

/-- `ForecastingEnsemble._get_top_k` (base.py lines 158-167):
`scores.sort_values().index.tolist()[:self.n_models]`.  The sort is modelled
as a mergesort of the index by ascending score; the claims proved against
this definition do not depend on the order of tied scores (the source
delegates tie order to numpy's default sort). -/
noncomputable def get_top_k {n : ℕ} (scores : Fin n → ℝ) (k : ℕ) :
    List (Fin n) :=
  ((List.finRange n).mergeSort
    (fun i j => decide (scores i ≤ scores j))).take k

/-- The trimming step applied to one series' weight vector inside
`Mixture._weights_by_uid` (base.py lines 356-365): zero the weights of the
models outside `keep`, then renormalize by the sum. -/
noncomputable def trim_weights {n : ℕ} (keep : List (Fin n))
    (w : Fin n → ℝ) : Fin n → ℝ :=
  fun i => (if i ∈ keep then w i else 0)
    / ∑ j, (if j ∈ keep then w j else 0)

/-- Column mean of the weight table, `weights.mean()` in
`Mixture._weights_by_uid`. -/
noncomputable def col_mean {n : ℕ} (tbl : List (String × (Fin n → ℝ)))
    (i : Fin n) : ℝ :=
  (tbl.map fun p => p.2 i).sum / tbl.length

/-- `Mixture._weights_by_uid` (base.py lines 349-371): keep the overall top-k
models by mean weight (global mode) or each series' own top-k (per-uid mode);
`_get_top_k` receives the negated weights, so the largest weights are kept. -/
noncomputable def weights_by_uid {n : ℕ} (weight_by_uid : Bool) (k : ℕ)
    (tbl : List (String × (Fin n → ℝ))) : List (String × (Fin n → ℝ)) :=
  let top_overall := get_top_k (fun i => -(col_mean tbl i)) k
  tbl.map fun p =>
    let keep := if weight_by_uid then get_top_k (fun i => -(p.2 i)) k
      else top_overall
    (p.1, trim_weights keep p.2)

lemma get_top_k_nodup {n : ℕ} (scores : Fin n → ℝ) (k : ℕ) :
    (get_top_k scores k).Nodup :=
  ((List.take_sublist _ _).nodup
    ((List.mergeSort_perm _ _).nodup_iff.mpr (List.nodup_finRange n)))

lemma get_top_k_length {n : ℕ} (scores : Fin n → ℝ) {k : ℕ} (hk : k ≤ n) :
    (get_top_k scores k).length = k := by
  unfold get_top_k
  rw [List.length_take, List.length_mergeSort, List.length_finRange]
  omega

lemma trim_weights_support {n : ℕ} (keep : List (Fin n)) (w : Fin n → ℝ)
    (hw : ∀ i, 0 < w i) (hne : keep ≠ []) :
    ∀ i, trim_weights keep w i ≠ 0 ↔ i ∈ keep := by
  have hS : 0 < ∑ j, (if j ∈ keep then w j else 0) := by
    obtain ⟨a, ha⟩ := List.exists_mem_of_ne_nil keep hne
    refine Finset.sum_pos' (fun j _ => ?_) ⟨a, Finset.mem_univ a, ?_⟩
    · split <;> [exact le_of_lt (hw j); rfl]
    · simpa [ha] using hw a
  intro i
  unfold trim_weights
  by_cases hi : i ∈ keep
  · simp only [hi, if_pos]
    exact iff_of_true (ne_of_gt (div_pos (hw i) hS)) trivial
  · simp [hi]

lemma count_nonzero_trim {n : ℕ} (keep : List (Fin n)) (w : Fin n → ℝ)
    (hw : ∀ i, 0 < w i) (hnd : keep.Nodup) (hne : keep ≠ []) :
    (Finset.univ.filter fun i => trim_weights keep w i ≠ 0).card
      = keep.length := by
  have hsupp := trim_weights_support keep w hw hne
  have : (Finset.univ.filter fun i => trim_weights keep w i ≠ 0)
      = keep.toFinset := by
    ext i
    simp [hsupp i]
  rw [this, List.toFinset_card_of_nodup hnd]

lemma set_n_models_ge_one (r : ℚ) (t : ℕ) : 1 ≤ set_n_models r t := by
  unfold set_n_models
  split <;> omega

lemma set_n_models_le {n : ℕ} (hn : 0 < n) {r : ℚ} (hr : r < 1) :
    set_n_models r n ≤ n := by
  have hfl : ⌊r * (n : ℚ)⌋ < (n : ℤ) := by
    apply Int.floor_lt.mpr
    push_cast
    calc r * n < 1 * n := by
          exact mul_lt_mul_of_pos_right hr (by exact_mod_cast hn)
      _ = n := one_mul _
  have h2 : Int.toNat ⌊r * (n : ℚ)⌋ ≤ n := Int.toNat_le.mpr (le_of_lt hfl)
  unfold set_n_models
  split <;> omega

/-- C4 counterexample: `_set_n_models` truncates (`int(...)`) rather than
rounding, so at `trim_ratio = 1/2` and roster size 3 the code keeps 1 model
while the specification's formula `max(1, round(r * s))` gives 2. -/
theorem n_models_int_vs_round :
    set_n_models (1/2) 3 = 1 ∧ claimed_n_models (1/2) 3 = 2 := by
  constructor
  · unfold set_n_models
    norm_num
  · unfold claimed_n_models
    rw [round_eq]
    norm_num
    rfl

/-- C4 (amended): the retained-model count is
`max(1, ⌊trim_ratio * roster_size⌋)` (truncation, not rounding), and for
`trim_ratio < 1` every post-trim weight vector produced by
`_weights_by_uid` has exactly that many non-zero entries (in either trimming
mode, for any table of strictly positive fitted weight vectors). -/
theorem trim_count_spec {n : ℕ} (hn : 0 < n) (r : ℚ)
    (mode : Bool) (tbl : List (String × (Fin n → ℝ)))
    (hw : ∀ p ∈ tbl, ∀ i, 0 < p.2 i) :
    set_n_models r n = max 1 (Int.toNat ⌊r * (n : ℚ)⌋) ∧
    (r < 1 →
      ∀ p ∈ weights_by_uid mode (set_n_models r n) tbl,
        (Finset.univ.filter fun i => p.2 i ≠ 0).card = set_n_models r n) := by
  have hk1 : 1 ≤ set_n_models r n := set_n_models_ge_one r n
  constructor
  · unfold set_n_models
    rw [Nat.max_def]
    split <;> split <;> omega
  · intro hr p hp
    have hkn : set_n_models r n ≤ n := set_n_models_le hn hr
    simp only [weights_by_uid, List.mem_map] at hp
    obtain ⟨q, hq, rfl⟩ := hp
    have hwq : ∀ i, 0 < q.2 i := hw q hq
    set keep := if mode then get_top_k (fun i => -(q.2 i)) (set_n_models r n)
      else get_top_k (fun i => -(col_mean tbl i)) (set_n_models r n) with hkeep
    have hlen : keep.length = set_n_models r n := by
      rw [hkeep]
      cases mode <;> simp <;> exact get_top_k_length _ hkn
    have hnd : keep.Nodup := by
      rw [hkeep]
      cases mode <;> simp <;> exact get_top_k_nodup _ _
    have hne : keep ≠ [] := by
      rw [← List.length_pos]
      omega
    show (Finset.univ.filter fun i => trim_weights keep q.2 i ≠ 0).card = _
    rw [count_nonzero_trim keep q.2 hwq hnd hne, hlen]

/-- C4 witness: the amended count formula instantiated at `trim_ratio = 1/2`
and a roster of four models. -/
theorem trim_count_spec_witness :
    set_n_models (1/2) 4 = max 1 (Int.toNat ⌊(1/2 : ℚ) * ((4 : ℕ) : ℚ)⌋) :=
  (trim_count_spec (by decide) (1/2) true
    [("A", fun _ : Fin 4 => 1)]
    (by
      intro p hp i
      rw [List.mem_singleton] at hp
      subst hp
      norm_num)).1

/-- One row of the in-sample forecast table passed to `Mixture.fit`: series
identifier (`unique_id`), timestamp (`ds`, modelled as a natural number),
actual value (`y`) and the expert forecasts. -/
structure MRow (n : ℕ) where
  uid : String
  ds : ℕ
  y : ℝ
  fc : Fin n → ℝ

/-- `insample_fcst.sort_values('ds')` in `Mixture._fit_all`: sort all rows by
timestamp across all series (tie order among equal timestamps is not relied
upon by any claim). -/
def sortByDs {n : ℕ} (rows : List (MRow n)) : List (MRow n) :=
  rows.mergeSort fun a b => decide (a.ds ≤ b.ds)

/-- `self.weights.iloc[-1]` at the end of `_fit_all`: the last row's weight
vector of the single pass run over the timestamp-sorted row sequence
(defaulting to the zero vector for an empty table, where the source would
never read it). -/
noncomputable def final_weights {n : ℕ} (cl : ℝ → ℝ → ℝ → ℝ)
    (rows : List (MRow n)) : Fin n → ℝ :=
  (((run_rows cl (initState n)
      ((sortByDs rows).map fun r => (r.fc, r.y))).map RowOut.weights).getLast?).getD
    (fun _ => 0)

/-- `Mixture._fit_all` (base.py lines 295-313): sort by timestamp, run the
update rule once over the concatenated sequence, and cache the final weight
vector for every `unique_id` seen in the input (`self.uid_weights`, a dict,
modelled as an association list over the deduplicated identifiers). -/
noncomputable def fit_all {n : ℕ} (cl : ℝ → ℝ → ℝ → ℝ)
    (rows : List (MRow n)) : List (String × (Fin n → ℝ)) :=
  (((sortByDs rows).map MRow.uid).dedup).map
    fun u => (u, final_weights cl rows)

/-- C5: global-mode fitting sorts all rows by timestamp (the sorted sequence
is a permutation of the input, pairwise ordered by `ds`), runs the update
rule once over that sequence, and assigns the single final weight vector of
that pass to every series identifier appearing in the input, so all series
share one identical cached weight vector. -/
theorem fit_all_global_broadcast {n : ℕ} (cl : ℝ → ℝ → ℝ → ℝ)
    (rows : List (MRow n)) :
    List.Pairwise (fun a b => a.ds ≤ b.ds) (sortByDs rows) ∧
    (sortByDs rows).Perm rows ∧
    (∀ u, u ∈ (fit_all cl rows).map Prod.fst ↔ u ∈ rows.map MRow.uid) ∧
    (∀ p ∈ fit_all cl rows, p.2 = final_weights cl rows) := by
  refine ⟨?_, List.mergeSort_perm rows _, ?_, ?_⟩
  · have h := @List.sorted_mergeSort (MRow n)
      (fun a b => decide (a.ds ≤ b.ds))
      (fun a b c hab hbc => by
        simp only [decide_eq_true_eq] at *
        omega)
      (fun a b => by
        simp only [Bool.or_eq_true, decide_eq_true_eq]
        omega)
      rows
    exact h.imp fun hab => of_decide_eq_true hab
  · intro u
    have hperm : (((sortByDs rows).map MRow.uid)).Perm (rows.map MRow.uid) :=
      (List.mergeSort_perm rows _).map MRow.uid
    simp only [fit_all, List.map_map]
    constructor
    · intro hu
      simp only [List.mem_map, Function.comp_apply] at hu
      obtain ⟨v, hv, rfl⟩ := hu
      exact hperm.mem_iff.mp (List.mem_dedup.mp hv)
    · intro hu
      exact List.mem_map.mpr
        ⟨u, List.mem_dedup.mpr (hperm.mem_iff.mpr hu), rfl⟩
  · intro p hp
    simp only [fit_all, List.mem_map] at hp
    obtain ⟨u, _, rfl⟩ := hp
    rfl

/-- `df.tail(k)` on a column of length `len`: the last `min k len` entries
(pandas truncates silently when `k` exceeds the length). -/
def tail_rows {α : Type} (k : ℕ) (l : List α) : List α :=
  l.drop (l.length - k)

/-- Modelled from the external dependency `neuralforecast.losses.numpy.smape`
(called by `ForecastingEnsemble.evaluate_base_fcst`): the mean over
observations of `|y - y_hat| / (|y| + |y_hat|)` with a zero denominator
mapped to 0 (`_divide_no_nan`), scaled by 200. -/
noncomputable def smape_val (y yhat : List ℝ) : ℝ :=
  200 * (List.zipWith
      (fun a b => if |a| + |b| = 0 then 0
        else |a - b| / (|a| + |b|)) y yhat).sum
    / y.length

/-- The guarded call `smape(...)` as used in `evaluate_base_fcst`: the
library asserts the result is at most 200, and the caller turns an
`AssertionError` into `np.nan` (modelled as `none`). -/
noncomputable def smape_checked (y yhat : List ℝ) : Option ℝ :=
  if smape_val y yhat ≤ 200 then some (smape_val y yhat) else none

/-- One windowed cell of `evaluate_base_fcst` (base.py lines 124-128):
`smape` of the trailing `window_size` observations, with `AssertionError`
mapped to not-a-number (`none`). -/
noncomputable def windowed_smape_cell (window_size : ℕ) (y yhat : List ℝ) :
    Option ℝ :=
  smape_checked (tail_rows window_size y) (tail_rows window_size yhat)

/-- C7: evaluated at a failing input for the claim.  A series with a single
observation (`y = [2]`, expert forecast `[2]`) and the daily window size 14:
`DataFrame.tail` silently returns the whole (shorter) series and `smape`
raises no `AssertionError`, so the windowed score is the computed value 0,
not not-a-number — the code computes a score over fewer observations. -/
theorem windowed_smape_short_series :
    windowed_smape_cell 14 [2] [2] = some 0 := by
  have hval : smape_val (tail_rows 14 [2]) (tail_rows 14 [2]) = 0 := by
    simp [tail_rows, smape_val]
  unfold windowed_smape_cell smape_checked
  rw [hval]
  norm_num

/-- Column set of a forecast table handed to `Mixture.predict`. -/
def assert_fcst (cols : List String) : Except String Unit :=
  if "unique_id" ∈ cols then Except.ok ()
  else Except.error "\x22unique_id\x22 should be included in the predictions object"

/-- A prediction-time forecast table: its column names and, per row, the
series identifier with the expert forecasts. -/
structure FcstDF (n : ℕ) where
  cols : List String
  rows : List (String × (Fin n → ℝ))

/-- `weights.loc[uid]` lookup in `ForecastingEnsemble._weighted_average`
(first matching entry; the zero vector stands in for the `KeyError` a
missing identifier would raise, a case no claim exercises). -/
noncomputable def lookup_weights {n : ℕ}
    (tbl : List (String × (Fin n → ℝ))) (u : String) : Fin n → ℝ :=
  ((tbl.find? fun p => p.1 == u).map Prod.snd).getD fun _ => 0

/-- `ForecastingEnsemble._weighted_average` (base.py lines 184-200): inner
product of a row's expert forecasts with the series' weight vector. -/
noncomputable def weighted_average {n : ℕ}
    (tbl : List (String × (Fin n → ℝ))) (row : String × (Fin n → ℝ)) : ℝ :=
  ∑ i, row.2 i * lookup_weights tbl row.1 i

/-- `Mixture.predict` (base.py lines 315-327): assert the `unique_id` column
is present, optionally trim the cached weight table when `trim_ratio < 1`,
then combine every row by `_weighted_average`.  The assertion failure is the
`Except.error` branch: no output is produced. -/
noncomputable def mixture_predict {n : ℕ} (weight_by_uid : Bool)
    (trim_ratio : ℚ) (n_models : ℕ)
    (uid_weights : List (String × (Fin n → ℝ))) (df : FcstDF n) :
    Except String (List ℝ) :=
  match assert_fcst df.cols with
  | Except.error e => Except.error e
  | Except.ok _ =>
      let w := if trim_ratio < 1
        then weights_by_uid weight_by_uid n_models uid_weights
        else uid_weights
      Except.ok (df.rows.map (weighted_average w))

/-- C8: a table lacking the `unique_id` column makes `predict` fail
immediately with the assertion message and produce no forecasts. -/
theorem predict_requires_unique_id {n : ℕ} (mode : Bool) (r : ℚ) (k : ℕ)
    (uw : List (String × (Fin n → ℝ))) (df : FcstDF n)
    (h : "unique_id" ∉ df.cols) :
    mixture_predict mode r k uw df
      = Except.error
          "\x22unique_id\x22 should be included in the predictions object" := by
  unfold mixture_predict assert_fcst
  rw [if_neg h]

/-- C8 witness: a concrete table whose only column is `ds` is rejected. -/
theorem predict_requires_unique_id_witness :
    ("unique_id" ∉ ["ds"]) ∧
      mixture_predict false 1 1
          ([] : List (String × (Fin 1 → ℝ))) ⟨["ds"], []⟩
        = Except.error
            "\x22unique_id\x22 should be included in the predictions object" :=
  ⟨by decide,
    predict_requires_unique_id false 1 1
      ([] : List (String × (Fin 1 → ℝ))) ⟨["ds"], []⟩ (by decide)⟩
